import Mathlib

/-!
Verification of the Kava balance checker's core logic.

The development shallowly embeds the Python sources
`kava_balance_checker.py` and `wkava_balance_checker.py`.  The two files
contain an identical block-resolution routine (`find_last_block_of_day`),
an identical RPC dispatch (`KavaRPCClient._make_rpc_call`) and an identical
date validator (`validate_date`); each is embedded once.  Machine integers
are Python arbitrary-precision integers, so they are modelled as `Int`
with no wrap-around.  Network effects are modelled by passing the outcome
of each remote call as an explicit oracle argument.
-/

namespace KavaChecker

/-- Outcome of probing one block height through the RPC gateway, as seen by
the `try`/`except` block of `find_last_block_of_day`:
`ok ts` models `get_block_by_number` returning a block whose
`int(block["timestamp"], 16)` equals `ts`; `absent` models the call
returning `None` (the `block is None` branch); `fail` models any raised
exception (transport error, protocol error, node-reported error, or a
malformed block object). -/
inductive ProbeResult where
  | ok (ts : Int)
  | absent
  | fail
deriving DecidableEq

/-- Python's `(left + right) // 2`: floor division of the sum by two. -/
def pymid (left right : Int) : Int := (left + right).fdiv 2

theorem pymid_le_right {left right : Int} (h : left ≤ right) :
    pymid left right ≤ right := by
  unfold pymid
  rw [Int.fdiv_eq_ediv _ (by omega)]
  omega

theorem left_le_pymid {left right : Int} (h : left ≤ right) :
    left ≤ pymid left right := by
  unfold pymid
  rw [Int.fdiv_eq_ediv _ (by omega)]
  omega

/-- The `while left <= right` loop of `find_last_block_of_day`
(`kava_balance_checker.py` lines 109–129, `wkava_balance_checker.py`
lines 133–153), with the mutable variables `left`, `right`, `result_block`
passed as arguments.  Each iteration probes `mid = (left + right) // 2`:
a block with `timestamp <= target_timestamp` records `mid` and moves
`left` up; a block with a larger timestamp, an absent block, or a raised
exception all move `right` down. -/
def searchLoop (probe : Int → ProbeResult) (target : Int)
    (left right : Int) (result : Option Int) : Option Int :=
  if h : left ≤ right then
    have h1 : left ≤ pymid left right := left_le_pymid h
    have h2 : pymid left right ≤ right := pymid_le_right h
    match probe (pymid left right) with
    | .ok ts =>
        if ts ≤ target then
          searchLoop probe target (pymid left right + 1) right
            (some (pymid left right))
        else
          searchLoop probe target left (pymid left right - 1) result
    | .absent => searchLoop probe target left (pymid left right - 1) result
    | .fail => searchLoop probe target left (pymid left right - 1) result
  else result
termination_by (right + 1 - left).toNat
decreasing_by
  all_goals omega

/-- `KavaBalanceChecker.find_last_block_of_day` /
`WKAVABalanceChecker.find_last_block_of_day`.  The latest block height
(obtained in the source by one `get_block_number()` gateway call before
the loop) is the explicit argument `latest`; the loop starts with
`left = 0`, `right = latest`, `result_block = None`. -/
def find_last_block_of_day (latest : Int) (probe : Int → ProbeResult)
    (target : Int) : Option Int :=
  searchLoop probe target 0 latest none

/-- A probe oracle that is total: every height returns a block, with
timestamp given by `ts`. -/
def totalProbe (ts : Int → Int) : Int → ProbeResult :=
  fun h => .ok (ts h)

/-- Fuel-indexed version of `searchLoop`, used only to evaluate the search
on concrete inputs by kernel reduction; `searchLoopFuel_eq` proves it
agrees with `searchLoop` whenever the fuel covers the interval size. -/
def searchLoopFuel (probe : Int → ProbeResult) (target : Int) :
    Nat → Int → Int → Option Int → Option Int
  | 0, _, _, result => result
  | n + 1, left, right, result =>
    if left ≤ right then
      match probe (pymid left right) with
      | .ok ts =>
          if ts ≤ target then
            searchLoopFuel probe target n (pymid left right + 1) right
              (some (pymid left right))
          else
            searchLoopFuel probe target n left (pymid left right - 1) result
      | .absent => searchLoopFuel probe target n left (pymid left right - 1) result
      | .fail => searchLoopFuel probe target n left (pymid left right - 1) result
    else result

theorem searchLoopFuel_eq (probe : Int → ProbeResult) (target : Int) :
    ∀ (n : Nat) (left right : Int) (result : Option Int),
      (right + 1 - left).toNat ≤ n →
      searchLoopFuel probe target n left right result =
        searchLoop probe target left right result := by
  intro n
  induction n with
  | zero =>
      intro left right result hn
      rw [searchLoop]
      have : ¬ left ≤ right := by omega
      simp [searchLoopFuel, this]
  | succ n ih =>
      intro left right result hn
      rw [searchLoop]
      by_cases h : left ≤ right
      · have h1 : left ≤ pymid left right := left_le_pymid h
        have h2 : pymid left right ≤ right := pymid_le_right h
        simp only [searchLoopFuel, if_pos h, dif_pos h]
        cases hp : probe (pymid left right) with
        | ok ts =>
            by_cases hts : ts ≤ target
            · simp only [if_pos hts]
              exact ih _ _ _ (by omega)
            · simp only [if_neg hts]
              exact ih _ _ _ (by omega)
        | absent => exact ih _ _ _ (by omega)
        | fail => exact ih _ _ _ (by omega)
      · simp [searchLoopFuel, h]

/-- Height `k` qualifies: probing it succeeds with a block whose timestamp
is at most the target. -/
def Qualifies (probe : Int → ProbeResult) (target k : Int) : Prop :=
  ∃ ts, probe k = .ok ts ∧ ts ≤ target

theorem searchLoop_of_not_le {probe target left right result}
    (h : ¬ left ≤ right) :
    searchLoop probe target left right result = result := by
  rw [searchLoop]
  simp [h]

theorem searchLoop_ok_le {probe : Int → ProbeResult} {target left right result ts}
    (h : left ≤ right) (hp : probe (pymid left right) = .ok ts)
    (hts : ts ≤ target) :
    searchLoop probe target left right result =
      searchLoop probe target (pymid left right + 1) right
        (some (pymid left right)) := by
  rw [searchLoop]
  simp [h, hp, hts]

theorem searchLoop_ok_gt {probe : Int → ProbeResult} {target left right result ts}
    (h : left ≤ right) (hp : probe (pymid left right) = .ok ts)
    (hts : ¬ ts ≤ target) :
    searchLoop probe target left right result =
      searchLoop probe target left (pymid left right - 1) result := by
  rw [searchLoop]
  simp [h, hp, hts]

theorem searchLoop_absent {probe : Int → ProbeResult} {target left right result}
    (h : left ≤ right) (hp : probe (pymid left right) = .absent) :
    searchLoop probe target left right result =
      searchLoop probe target left (pymid left right - 1) result := by
  rw [searchLoop]
  simp [h, hp]

theorem searchLoop_fail {probe : Int → ProbeResult} {target left right result}
    (h : left ≤ right) (hp : probe (pymid left right) = .fail) :
    searchLoop probe target left right result =
      searchLoop probe target left (pymid left right - 1) result := by
  rw [searchLoop]
  simp [h, hp]

/-- Soundness of the loop for an arbitrary oracle: a returned height either
was already the incoming `result`, or lies in the search interval and was
probed successfully with a qualifying timestamp. -/
theorem searchLoop_sound (probe : Int → ProbeResult) (target : Int) :
    ∀ left right result,
      (∀ h, searchLoop probe target left right result = some h →
        result = some h ∨
          (left ≤ h ∧ h ≤ right ∧ Qualifies probe target h)) := by
  intro left right result
  induction left, right, result using searchLoop.induct probe target with
  | case1 left right result hlr h1 h2 ts hp hts ih =>
      intro h heq
      rw [searchLoop_ok_le hlr hp hts] at heq
      rcases ih h heq with hcase | ⟨hl, hr, hq⟩
      · have hh : pymid left right = h := Option.some_inj.mp hcase
        subst hh
        exact Or.inr ⟨h1, h2, ts, hp, hts⟩
      · right
        exact ⟨by omega, hr, hq⟩
  | case2 left right result hlr h1 h2 ts hp hts ih =>
      intro h heq
      rw [searchLoop_ok_gt hlr hp hts] at heq
      rcases ih h heq with hcase | ⟨hl, hr, hq⟩
      · exact Or.inl hcase
      · exact Or.inr ⟨hl, by omega, hq⟩
  | case3 left right result hlr h1 h2 hp ih =>
      intro h heq
      rw [searchLoop_absent hlr hp] at heq
      rcases ih h heq with hcase | ⟨hl, hr, hq⟩
      · exact Or.inl hcase
      · exact Or.inr ⟨hl, by omega, hq⟩
  | case4 left right result hlr h1 h2 hp ih =>
      intro h heq
      rw [searchLoop_fail hlr hp] at heq
      rcases ih h heq with hcase | ⟨hl, hr, hq⟩
      · exact Or.inl hcase
      · exact Or.inr ⟨hl, by omega, hq⟩
  | case5 left right result hlr =>
      intro h heq
      rw [searchLoop_of_not_le hlr] at heq
      exact Or.inl heq

/-- Invariant-based analysis of the loop for a total, monotone oracle.
The five hypotheses on `left`, `right`, `result` hold at loop entry
(`left = 0`, `right = latest`, `result = none`) and are preserved by every
iteration; they pin down the loop's answer completely. -/
theorem searchLoop_total_mono (ts : Int → Int) (target latest : Int)
    (hmono : ∀ a b, 0 ≤ a → a ≤ b → b ≤ latest → ts a ≤ ts b) :
    ∀ left right result,
      0 ≤ left → left ≤ latest + 1 → right ≤ latest →
      (∀ k, 0 ≤ k → k < left → ts k ≤ target) →
      (∀ k, right < k → k ≤ latest → target < ts k) →
      result = (if left = 0 then none else some (left - 1)) →
      ((searchLoop (totalProbe ts) target left right result = none →
          ∀ k, 0 ≤ k → k ≤ latest → target < ts k) ∧
        (∀ h, searchLoop (totalProbe ts) target left right result = some h →
          0 ≤ h ∧ h ≤ latest ∧ ts h ≤ target ∧
            (h = latest ∨ target < ts (h + 1)))) := by
  intro left right result
  induction left, right, result using searchLoop.induct (totalProbe ts) target with
  | case1 left right result hlr h1 h2 tsv hp hts ih =>
      intro hl0 hllat hrlat hbelow habove hres
      have hmid : totalProbe ts (pymid left right) = .ok (ts (pymid left right)) := rfl
      have htsv : tsv = ts (pymid left right) := by
        rw [hmid] at hp
        exact (ProbeResult.ok.injEq _ _).mp hp.symm
      subst htsv
      rw [searchLoop_ok_le hlr hp hts]
      refine ih ?_ ?_ ?_ ?_ ?_ ?_
      · omega
      · omega
      · exact hrlat
      · intro k hk0 hk
        rcases lt_or_ge k left with hkl | hkl
        · exact hbelow k hk0 hkl
        · exact le_trans (hmono k (pymid left right) hk0 (by omega) (by omega)) hts
      · exact habove
      · simp
        omega
  | case2 left right result hlr h1 h2 tsv hp hts ih =>
      intro hl0 hllat hrlat hbelow habove hres
      have hmid : totalProbe ts (pymid left right) = .ok (ts (pymid left right)) := rfl
      have htsv : tsv = ts (pymid left right) := by
        rw [hmid] at hp
        exact (ProbeResult.ok.injEq _ _).mp hp.symm
      subst htsv
      rw [searchLoop_ok_gt hlr hp hts]
      refine ih ?_ ?_ ?_ ?_ ?_ ?_
      · omega
      · omega
      · omega
      · exact hbelow
      · intro k hk hklat
        rcases lt_or_ge right k with hrk | hrk
        · exact habove k hrk hklat
        · exact lt_of_lt_of_le (by omega) (hmono (pymid left right) k (by omega) (by omega) hklat)
      · exact hres
  | case3 left right result hlr h1 h2 hp ih =>
      intro _ _ _ _ _ _
      exact absurd hp (by simp [totalProbe])
  | case4 left right result hlr h1 h2 hp ih =>
      intro _ _ _ _ _ _
      exact absurd hp (by simp [totalProbe])
  | case5 left right result hlr =>
      intro hl0 hllat hrlat hbelow habove hres
      rw [searchLoop_of_not_le hlr]
      constructor
      · intro hnone k hk0 hklat
        rw [hres] at hnone
        have hleft0 : left = 0 := by
          by_contra hne
          simp [hne] at hnone
        subst hleft0
        exact habove k (by omega) hklat
      · intro h hsome
        rw [hres] at hsome
        by_cases hleft0 : left = 0
        · simp [hleft0] at hsome
        · simp [hleft0] at hsome
          have hh : h = left - 1 := by omega
          subst hh
          refine ⟨by omega, by omega, hbelow _ (by omega) (by omega), ?_⟩
          by_cases hlatest : left - 1 = latest
          · exact Or.inl hlatest
          · refine Or.inr ?_
            have : left - 1 + 1 = left := by omega
            rw [this]
            exact habove left (by omega) (by omega)

/-- Under monotonicity, at most one height satisfies the "last block at or
before the target" characterisation. -/
theorem lastBlock_unique (ts : Int → Int) (target latest : Int)
    (hmono : ∀ a b, 0 ≤ a → a ≤ b → b ≤ latest → ts a ≤ ts b)
    {h h' : Int}
    (hc : 0 ≤ h ∧ h ≤ latest ∧ ts h ≤ target ∧ (h = latest ∨ target < ts (h + 1)))
    (hc' : 0 ≤ h' ∧ h' ≤ latest ∧ ts h' ≤ target ∧ (h' = latest ∨ target < ts (h' + 1))) :
    h = h' := by
  obtain ⟨h0, hlat, hle, hnext⟩ := hc
  obtain ⟨h0', hlat', hle', hnext'⟩ := hc'
  by_contra hne
  rcases lt_or_gt_of_ne hne with hlt | hgt
  · rcases hnext with heq | hnext
    · omega
    · exact absurd (le_trans (hmono (h + 1) h' (by omega) (by omega) hlat') hle')
        (by omega)
  · rcases hnext' with heq | hnext'
    · omega
    · exact absurd (le_trans (hmono (h' + 1) h (by omega) (by omega) hlat) hle)
        (by omega)

/-- The oracle `probe`, with the probe at height `f` replaced by a raised
exception (transient failure injected at a single height). -/
def failAt (f : Int) (probe : Int → ProbeResult) : Int → ProbeResult :=
  fun h => if h = f then .fail else probe h

/-- Injecting a failure at a height that does not qualify (its probe either
already fails, returns no block, or returns a timestamp above the target)
leaves the whole search unchanged: at that height both runs take the
`right = mid - 1` branch, and elsewhere the oracles agree. -/
theorem searchLoop_failAt (probe : Int → ProbeResult) (target f : Int)
    (hf : ¬ Qualifies probe target f) :
    ∀ left right result,
      searchLoop (failAt f probe) target left right result =
        searchLoop probe target left right result := by
  intro left right result
  induction left, right, result using searchLoop.induct probe target with
  | case1 left right result hlr h1 h2 ts hp hts ih =>
      have hne : pymid left right ≠ f := by
        intro heq
        exact hf ⟨ts, heq ▸ hp, hts⟩
      have hp' : failAt f probe (pymid left right) = .ok ts := by
        simp [failAt, hne, hp]
      rw [searchLoop_ok_le hlr hp hts, searchLoop_ok_le hlr hp' hts]
      exact ih
  | case2 left right result hlr h1 h2 ts hp hts ih =>
      by_cases hne : pymid left right = f
      · have hp' : failAt f probe (pymid left right) = .fail := by
          simp [failAt, hne]
        rw [searchLoop_ok_gt hlr hp hts, searchLoop_fail hlr hp']
        exact ih
      · have hp' : failAt f probe (pymid left right) = .ok ts := by
          simp [failAt, hne, hp]
        rw [searchLoop_ok_gt hlr hp hts, searchLoop_ok_gt hlr hp' hts]
        exact ih
  | case3 left right result hlr h1 h2 hp ih =>
      by_cases hne : pymid left right = f
      · have hp' : failAt f probe (pymid left right) = .fail := by
          simp [failAt, hne]
        rw [searchLoop_absent hlr hp, searchLoop_fail hlr hp']
        exact ih
      · have hp' : failAt f probe (pymid left right) = .absent := by
          simp [failAt, hne, hp]
        rw [searchLoop_absent hlr hp, searchLoop_absent hlr hp']
        exact ih
  | case4 left right result hlr h1 h2 hp ih =>
      by_cases hne : pymid left right = f
      · have hp' : failAt f probe (pymid left right) = .fail := by
          simp [failAt, hne]
        rw [searchLoop_fail hlr hp, searchLoop_fail hlr hp']
        exact ih
      · have hp' : failAt f probe (pymid left right) = .fail := by
          simp [failAt, hne, hp]
        rw [searchLoop_fail hlr hp, searchLoop_fail hlr hp']
        exact ih
  | case5 left right result hlr =>
      rw [searchLoop_of_not_le hlr, searchLoop_of_not_le hlr]

/-- C1: for a total, monotonically non-decreasing probe oracle over heights
`0..latest`, `find_last_block_of_day` returns `some h` exactly for the
unique height `h` in range with `ts h ≤ target` and
(`h = latest` or `target < ts (h+1)`), and returns `none` exactly when no
height in range has a timestamp at most the target; in particular a target
at or after the head timestamp resolves to `latest`. -/
theorem claim_C1 (latest target : Int) (ts : Int → Int)
    (hlat : 0 ≤ latest)
    (hmono : ∀ a b, 0 ≤ a → a ≤ b → b ≤ latest → ts a ≤ ts b) :
    (find_last_block_of_day latest (totalProbe ts) target = none ↔
      ∀ k, 0 ≤ k → k ≤ latest → target < ts k) ∧
    (∀ h, find_last_block_of_day latest (totalProbe ts) target = some h ↔
      (0 ≤ h ∧ h ≤ latest ∧ ts h ≤ target ∧
        (h = latest ∨ target < ts (h + 1)))) ∧
    (ts latest ≤ target →
      find_last_block_of_day latest (totalProbe ts) target = some latest) := by
  have hmain := searchLoop_total_mono ts target latest hmono 0 latest none
    (by omega) (by omega) (by omega)
    (by intro k hk0 hk; omega)
    (by intro k hk hklat; omega)
    (by simp)
  rw [show searchLoop (totalProbe ts) target 0 latest none =
      find_last_block_of_day latest (totalProbe ts) target from rfl] at hmain
  have hsome_iff : ∀ h,
      find_last_block_of_day latest (totalProbe ts) target = some h ↔
        (0 ≤ h ∧ h ≤ latest ∧ ts h ≤ target ∧
          (h = latest ∨ target < ts (h + 1))) := by
    intro h
    constructor
    · exact hmain.2 h
    · intro hc
      cases hval : find_last_block_of_day latest (totalProbe ts) target with
      | none =>
          have := hmain.1 hval h hc.1 hc.2.1
          exact absurd hc.2.2.1 (by omega)
      | some h' =>
          have hc' := hmain.2 h' hval
          rw [lastBlock_unique ts target latest hmono hc' hc]
  refine ⟨?_, hsome_iff, ?_⟩
  · constructor
    · exact hmain.1
    · intro hall
      cases hval : find_last_block_of_day latest (totalProbe ts) target with
      | none => rfl
      | some h' =>
          have hc' := hmain.2 h' hval
          exact absurd hc'.2.2.1 (by have := hall h' hc'.1 hc'.2.1; omega)
  · intro hhead
    exact (hsome_iff latest).mpr ⟨hlat, le_refl _, hhead, Or.inl rfl⟩

/-- Witness for C1: the end-to-end scenario from the specification — chain
heights `0..100`, timestamps `height * 1000`, target `50500` resolves to
height `50`; and with the same oracle a target at the head timestamp
(`100000`) resolves to `100`. -/
theorem claim_C1_witness :
    find_last_block_of_day 100 (totalProbe (fun h => h * 1000)) 50500 = some 50 ∧
    find_last_block_of_day 100 (totalProbe (fun h => h * 1000)) 100000 = some 100 := by
  constructor
  · exact ((claim_C1 100 50500 (fun h => h * 1000) (by omega)
      (by intro a b ha hab hb; show a * 1000 ≤ b * 1000; omega)).2.1 50).mpr (by norm_num)
  · exact (claim_C1 100 100000 (fun h => h * 1000) (by omega)
      (by intro a b ha hab hb; show a * 1000 ≤ b * 1000; omega)).2.2 (by norm_num)

/-- Counterexample to C2 as stated: heights `0..2`, all timestamps `0`,
target `0` (a monotone total oracle; every height qualifies).  Injecting a
single probe failure at height `2` changes the result from `some 2` to
`some 1`, even though the qualifying heights `0` and `1` remain reachable
without probing height `2` (the failing run itself confirms height `1`). -/
theorem claim_C2_counterexample :
    find_last_block_of_day 2 (totalProbe (fun _ => 0)) 0 = some 2 ∧
    find_last_block_of_day 2 (failAt 2 (totalProbe (fun _ => 0))) 0 = some 1 ∧
    (some 2 : Option Int) ≠ some 1 := by
  refine ⟨?_, ?_, by decide⟩
  · rw [find_last_block_of_day, ← searchLoopFuel_eq _ _ 3 _ _ _ (by decide)]
    decide
  · rw [find_last_block_of_day, ← searchLoopFuel_eq _ _ 3 _ _ _ (by decide)]
    decide

/-- C2 (amended): for a monotone total oracle, injecting a single probe
failure at a height `f` whose timestamp exceeds the target (a
non-qualifying height) does not change the result of
`find_last_block_of_day`: at `f` both runs narrow the upper bound, and
everywhere else the two oracles agree. -/
theorem claim_C2_amended (ts : Int → Int) (target latest f : Int)
    (hmono : ∀ a b, 0 ≤ a → a ≤ b → b ≤ latest → ts a ≤ ts b)
    (hf : target < ts f) :
    find_last_block_of_day latest (failAt f (totalProbe ts)) target =
      find_last_block_of_day latest (totalProbe ts) target := by
  have hnq : ¬ Qualifies (totalProbe ts) target f := by
    rintro ⟨ts', hts', hle⟩
    have : ts' = ts f := (ProbeResult.ok.injEq _ _).mp hts'.symm
    omega
  exact searchLoop_failAt (totalProbe ts) target f hnq 0 latest none

/-- Witness for the amended C2: heights `0..100`, timestamps
`height * 1000`, target `50500`; a failure injected at height `70`
(timestamp `70000 > 50500`) leaves the result unchanged. -/
theorem claim_C2_amended_witness :
    find_last_block_of_day 100 (failAt 70 (totalProbe (fun h => h * 1000))) 50500 =
      find_last_block_of_day 100 (totalProbe (fun h => h * 1000)) 50500 :=
  claim_C2_amended (fun h => h * 1000) 50500 100 70
    (by intro a b ha hab hb; show a * 1000 ≤ b * 1000; omega)
    (by norm_num)

/-- C10: with no assumption on the oracle at all — arbitrary failures,
absent blocks, non-monotone timestamps — whenever the search returns a
height `h`, that height is in range `0..latest` and its own probe
succeeded with a timestamp at most the target. -/
theorem claim_C10 (latest : Int) (probe : Int → ProbeResult) (target h : Int)
    (hret : find_last_block_of_day latest probe target = some h) :
    0 ≤ h ∧ h ≤ latest ∧ Qualifies probe target h := by
  rcases searchLoop_sound probe target 0 latest none h hret with hnone | hgood
  · exact absurd hnone (by simp)
  · exact hgood

/-- Witness for C10, on a non-monotone oracle with a failure and an absent
block: heights `0..6`, probe fails at `5`, is absent at `4`, timestamps
`10, 0, 7, 3, -, -, 99`, target `7`.  The search returns height `3`, which
is in range and qualifies (`3 ≤ 7`). -/
theorem claim_C10_witness :
    (0 : Int) ≤ 3 ∧ (3 : Int) ≤ 6 ∧
      Qualifies
        (fun h => if h = 5 then .fail else if h = 4 then .absent else
          .ok (if h = 0 then 10 else if h = 1 then 0 else if h = 2 then 7
            else if h = 3 then 3 else 99)) 7 3 :=
  claim_C10 6
    (fun h => if h = 5 then .fail else if h = 4 then .absent else
      .ok (if h = 0 then 10 else if h = 1 then 0 else if h = 2 then 7
        else if h = 3 then 3 else 99)) 7 3
    (by rw [find_last_block_of_day, ← searchLoopFuel_eq _ _ 7 _ _ _ (by decide)]
        decide)

/-- One iteration's view of the loop of `find_last_block_of_day`: the
mutable variables `left`, `right`, `result_block`, plus the (ghost) list
of heights probed so far, newest first. -/
structure SearchState where
  left : Int
  right : Int
  result : Option Int
  probed : List Int
deriving DecidableEq

/-- One iteration of the `while left <= right` loop, recording the probed
height in the ghost `probed` field; on a state where the loop guard fails
the state is returned unchanged. -/
def searchStep (probe : Int → ProbeResult) (target : Int)
    (s : SearchState) : SearchState :=
  if s.left ≤ s.right then
    match probe (pymid s.left s.right) with
    | .ok ts =>
        if ts ≤ target then
          ⟨pymid s.left s.right + 1, s.right, some (pymid s.left s.right),
            pymid s.left s.right :: s.probed⟩
        else
          ⟨s.left, pymid s.left s.right - 1, s.result,
            pymid s.left s.right :: s.probed⟩
    | .absent =>
        ⟨s.left, pymid s.left s.right - 1, s.result,
          pymid s.left s.right :: s.probed⟩
    | .fail =>
        ⟨s.left, pymid s.left s.right - 1, s.result,
          pymid s.left s.right :: s.probed⟩
  else s

/-- The loop state after `n` iterations, starting from the entry state
`left = 0`, `right = latest`, `result_block = None`. -/
def searchTrace (probe : Int → ProbeResult) (target latest : Int) :
    Nat → SearchState
  | 0 => ⟨0, latest, none, []⟩
  | n + 1 => searchStep probe target (searchTrace probe target latest n)

/-- Size of the closed interval `[left, right]` still to be searched. -/
def stateMeasure (s : SearchState) : Nat := (s.right + 1 - s.left).toNat

theorem searchStep_measure_lt (probe : Int → ProbeResult) (target : Int)
    (s : SearchState) (h : s.left ≤ s.right) :
    stateMeasure (searchStep probe target s) < stateMeasure s := by
  have h1 := left_le_pymid h
  have h2 := pymid_le_right h
  unfold searchStep stateMeasure
  rw [if_pos h]
  cases probe (pymid s.left s.right) with
  | ok ts =>
      dsimp only
      split
      · dsimp only
        omega
      · dsimp only
        omega
  | absent =>
      dsimp only
      omega
  | fail =>
      dsimp only
      omega

theorem searchStep_of_done (probe : Int → ProbeResult) (target : Int)
    (s : SearchState) (h : ¬ s.left ≤ s.right) :
    searchStep probe target s = s := by
  unfold searchStep
  rw [if_neg h]

/-- Running `searchLoop` from a state gives the same answer as running it
from the state one iteration later: each `searchStep` mirrors exactly one
unfolding of `searchLoop`. -/
theorem searchLoop_searchStep (probe : Int → ProbeResult) (target : Int)
    (s : SearchState) :
    searchLoop probe target s.left s.right s.result =
      searchLoop probe target (searchStep probe target s).left
        (searchStep probe target s).right
        (searchStep probe target s).result := by
  by_cases h : s.left ≤ s.right
  · unfold searchStep
    rw [if_pos h]
    cases hp : probe (pymid s.left s.right) with
    | ok ts =>
        dsimp only
        by_cases hts : ts ≤ target
        · rw [if_pos hts]
          exact searchLoop_ok_le h hp hts
        · rw [if_neg hts]
          exact searchLoop_ok_gt h hp hts
    | absent =>
        dsimp only
        exact searchLoop_absent h hp
    | fail =>
        dsimp only
        exact searchLoop_fail h hp
  · rw [searchStep_of_done probe target s h]

theorem searchLoop_searchTrace (probe : Int → ProbeResult)
    (target latest : Int) :
    ∀ n, find_last_block_of_day latest probe target =
      searchLoop probe target (searchTrace probe target latest n).left
        (searchTrace probe target latest n).right
        (searchTrace probe target latest n).result := by
  intro n
  induction n with
  | zero => rfl
  | succ n ih =>
      rw [ih]
      exact searchLoop_searchStep probe target (searchTrace probe target latest n)

/-- After enough iterations the loop guard `left <= right` fails for good:
each iteration shrinks the interval, so the trace reaches (and stays in)
a finished state. -/
theorem searchTrace_done (probe : Int → ProbeResult) (target latest : Int) :
    ∀ n, ¬ (searchTrace probe target latest n).left ≤
        (searchTrace probe target latest n).right ∨
      stateMeasure (searchTrace probe target latest n) + n ≤
        stateMeasure (⟨0, latest, none, []⟩ : SearchState) := by
  intro n
  induction n with
  | zero => exact Or.inr (by simp [searchTrace])
  | succ n ih =>
      by_cases hdone : (searchTrace probe target latest n).left ≤
          (searchTrace probe target latest n).right
      · rcases ih with hd | hm
        · exact absurd hdone hd
        · refine Or.inr ?_
          have := searchStep_measure_lt probe target
            (searchTrace probe target latest n) hdone
          show stateMeasure (searchStep probe target
            (searchTrace probe target latest n)) + (n + 1) ≤ _
          omega
      · left
        show ¬ (searchStep probe target (searchTrace probe target latest n)).left ≤
          (searchStep probe target (searchTrace probe target latest n)).right
        rw [searchStep_of_done probe target _ hdone]
        exact hdone

theorem not_le_of_stateMeasure_eq_zero (s : SearchState)
    (h : stateMeasure s = 0) : ¬ s.left ≤ s.right := by
  unfold stateMeasure at h
  omega

/-- C4: for every latest height and every probe oracle — arbitrary
per-height success, failure or absent-block outcomes — (i) every iteration
taken from a live state strictly shrinks the interval `[left, right]`;
(ii) the loop therefore terminates: some iterate of the loop body reaches
a state with `left > right`, and the function's value is that state's
`result_block`; (iii) when no height in range has a successful probe with
timestamp at most the target, the function returns `none` (NotFound). -/
theorem claim_C4 (latest : Int) (probe : Int → ProbeResult) (target : Int) :
    (∀ s : SearchState, s.left ≤ s.right →
      stateMeasure (searchStep probe target s) < stateMeasure s) ∧
    (∃ n, ¬ (searchTrace probe target latest n).left ≤
        (searchTrace probe target latest n).right ∧
      find_last_block_of_day latest probe target =
        (searchTrace probe target latest n).result) ∧
    ((∀ k, 0 ≤ k → k ≤ latest → ¬ Qualifies probe target k) →
      find_last_block_of_day latest probe target = none) := by
  refine ⟨searchStep_measure_lt probe target, ?_, ?_⟩
  · refine ⟨stateMeasure (⟨0, latest, none, []⟩ : SearchState), ?_⟩
    have hdone : ¬ (searchTrace probe target latest
        (stateMeasure (⟨0, latest, none, []⟩ : SearchState))).left ≤
        (searchTrace probe target latest
          (stateMeasure (⟨0, latest, none, []⟩ : SearchState))).right := by
      rcases searchTrace_done probe target latest
        (stateMeasure (⟨0, latest, none, []⟩ : SearchState)) with hd | hm
      · exact hd
      · exact not_le_of_stateMeasure_eq_zero _ (by omega)
    refine ⟨hdone, ?_⟩
    rw [searchLoop_searchTrace probe target latest
      (stateMeasure (⟨0, latest, none, []⟩ : SearchState))]
    rw [searchLoop_of_not_le hdone]
  · intro hnoqual
    cases hval : find_last_block_of_day latest probe target with
    | none => rfl
    | some h =>
        rcases searchLoop_sound probe target 0 latest none h hval with hcontra | hgood
        · exact absurd hcontra (by simp)
        · exact absurd hgood.2.2 (hnoqual h hgood.1 hgood.2.1)

/-- Witness for C4, instantiating part (iii) at a concrete oracle where
every probe fails: the search over heights `0..5` returns `none`. -/
theorem claim_C4_witness :
    find_last_block_of_day 5 (fun _ => .fail) 0 = none :=
  (claim_C4 5 (fun _ => .fail) 0).2.2
    (by rintro k hk0 hk ⟨ts, hts, hle⟩; cases hts)

/-- Strengthened loop invariant: every qualifying probed height is bounded
by the recorded result, and the recorded result is itself a qualifying
probed height lying strictly below `left`. -/
def StrongInv (probe : Int → ProbeResult) (target : Int)
    (s : SearchState) : Prop :=
  (∀ k ∈ s.probed, Qualifies probe target k →
    ∃ h, s.result = some h ∧ k ≤ h) ∧
  (∀ h, s.result = some h →
    h ∈ s.probed ∧ Qualifies probe target h ∧ h < s.left)

theorem strongInv_init (probe : Int → ProbeResult) (target latest : Int) :
    StrongInv probe target ⟨0, latest, none, []⟩ := by
  constructor
  · intro k hk
    simp at hk
  · intro h hh
    simp at hh

theorem strongInv_step (probe : Int → ProbeResult) (target : Int)
    (s : SearchState) (hinv : StrongInv probe target s) :
    StrongInv probe target (searchStep probe target s) := by
  by_cases hlr : s.left ≤ s.right
  · have h1 := left_le_pymid hlr
    unfold searchStep
    rw [if_pos hlr]
    cases hp : probe (pymid s.left s.right) with
    | ok ts =>
        dsimp only
        by_cases hts : ts ≤ target
        · rw [if_pos hts]
          constructor
          · intro k hk hq
            rcases List.mem_cons.mp hk with hk | hk
            · exact ⟨pymid s.left s.right, rfl, le_of_eq hk⟩
            · obtain ⟨h₀, hres₀, hkh₀⟩ := hinv.1 k hk hq
              obtain ⟨_, _, hlt₀⟩ := hinv.2 h₀ hres₀
              exact ⟨pymid s.left s.right, rfl, by omega⟩
          · intro h hh
            have hhm : h = pymid s.left s.right := by
              simpa using hh.symm
            subst hhm
            refine ⟨List.mem_cons_self _ _, ⟨ts, hp, hts⟩, ?_⟩
            show pymid s.left s.right < pymid s.left s.right + 1
            omega
        · rw [if_neg hts]
          constructor
          · intro k hk hq
            rcases List.mem_cons.mp hk with hk | hk
            · obtain ⟨ts', hts', hle'⟩ := hq
              rw [hk, hp] at hts'
              have : ts' = ts := (ProbeResult.ok.injEq _ _).mp hts'.symm
              omega
            · exact hinv.1 k hk hq
          · intro h hh
            obtain ⟨hmem, hq, hlt⟩ := hinv.2 h hh
            exact ⟨List.mem_cons_of_mem _ hmem, hq, hlt⟩
    | absent =>
        dsimp only
        constructor
        · intro k hk hq
          rcases List.mem_cons.mp hk with hk | hk
          · obtain ⟨ts', hts', _⟩ := hq
            rw [hk, hp] at hts'
            cases hts'
          · exact hinv.1 k hk hq
        · intro h hh
          obtain ⟨hmem, hq, hlt⟩ := hinv.2 h hh
          exact ⟨List.mem_cons_of_mem _ hmem, hq, hlt⟩
    | fail =>
        dsimp only
        constructor
        · intro k hk hq
          rcases List.mem_cons.mp hk with hk | hk
          · obtain ⟨ts', hts', _⟩ := hq
            rw [hk, hp] at hts'
            cases hts'
          · exact hinv.1 k hk hq
        · intro h hh
          obtain ⟨hmem, hq, hlt⟩ := hinv.2 h hh
          exact ⟨List.mem_cons_of_mem _ hmem, hq, hlt⟩
  · rw [searchStep_of_done probe target s hlr]
    exact hinv

theorem strongInv_trace (probe : Int → ProbeResult) (target latest : Int) :
    ∀ n, StrongInv probe target (searchTrace probe target latest n) := by
  intro n
  induction n with
  | zero => exact strongInv_init probe target latest
  | succ n ih => exact strongInv_step probe target _ ih

/-- C3: at every iteration of the binary-search loop (state after `n`
steps from loop entry), for any probe oracle, `result_block` is either
unset or equal to the highest height probed so far whose probe succeeded
with a timestamp at most the target; in particular the invariant holds at
loop entry (`n = 0`) and is preserved by the success, failure and
absent-block branches alike (each step is one such branch). -/
theorem claim_C3 (probe : Int → ProbeResult) (target latest : Int) (n : Nat) :
    (searchTrace probe target latest n).result = none ∨
    ∃ h, (searchTrace probe target latest n).result = some h ∧
      h ∈ (searchTrace probe target latest n).probed ∧
      Qualifies probe target h ∧
      ∀ k ∈ (searchTrace probe target latest n).probed,
        Qualifies probe target k → k ≤ h := by
  have hinv := strongInv_trace probe target latest n
  cases hres : (searchTrace probe target latest n).result with
  | none => exact Or.inl rfl
  | some h =>
      refine Or.inr ⟨h, rfl, ?_, ?_, ?_⟩
      · exact (hinv.2 h hres).1
      · exact (hinv.2 h hres).2.1
      · intro k hk hq
        obtain ⟨h', hres', hkh'⟩ := hinv.1 k hk hq
        rw [hres] at hres'
        rw [Option.some_inj.mp hres']
        exact hkh'

/-! ## RPC gateway (`KavaRPCClient._make_rpc_call`)

The transport and JSON layers are external collaborators; the outcome of
the single HTTP round trip is passed in explicitly.  A JSON-RPC response
body is modelled as a JSON object: a finite list of string-keyed fields
with values in an abstract type `V`. -/

/-- Outcome of the one `urllib.request.urlopen` round trip inside
`_make_rpc_call`: `urlError` models a raised `urllib.error.URLError`
(connection failure or timeout), `badJson` a response body that
`json.loads` rejects (`json.JSONDecodeError`), and `ok fields` a body that
parses to the JSON object `fields`. -/
inductive HttpOutcome (V : Type) where
  | urlError
  | badJson
  | ok (fields : List (String × V))

/-- How `_make_rpc_call` fails: `transportError` is the re-raised
`Exception("Network error: ...")`, `protocolError` the re-raised
`Exception("Invalid JSON response: ...")`, `remoteError e` the raised
`Exception("RPC error: ...")` carrying the response's `error` field, and
`keyError` the uncaught Python `KeyError` from `result["result"]` when the
parsed object has neither an `error` nor a `result` field. -/
inductive RpcFailure (V : Type) where
  | transportError
  | protocolError
  | remoteError (e : V)
  | keyError

/-- Python `dict` field access on a parsed JSON object (`"k" in result`
and `result["k"]`): first binding of the key, if any. -/
def lookupField {V : Type} (k : String) : List (String × V) → Option V
  | [] => none
  | (k', v) :: rest => if k' = k then some v else lookupField k rest

/-- `KavaRPCClient._make_rpc_call` (`kava_balance_checker.py` lines 23–53,
`wkava_balance_checker.py` lines 23–55), as a function of the round trip's
outcome: a `URLError` is re-raised as a network error, a JSON decoding
failure as an invalid-response error; a parsed object containing an
`error` field raises an RPC error carrying that field; otherwise the
`result` field is returned (its absence raising `KeyError`, which neither
`except` clause catches). -/
def make_rpc_call {V : Type} (o : HttpOutcome V) : Except (RpcFailure V) V :=
  match o with
  | .urlError => .error .transportError
  | .badJson => .error .protocolError
  | .ok fields =>
    match lookupField "error" fields with
    | some e => .error (.remoteError e)
    | none =>
      match lookupField "result" fields with
      | some r => .ok r
      | none => .error .keyError

/-- `_make_rpc_call` as a function of the outcomes that successive
transport attempts would produce: the body performs exactly one
`urlopen` call and has no retry loop, so only attempt `0` is consumed. -/
def make_rpc_call_attempts {V : Type} (attempts : Nat → HttpOutcome V) :
    Except (RpcFailure V) V :=
  make_rpc_call (attempts 0)

/-- Counterexample to C5 as stated: a response that parses to the empty
JSON object `{}` — no transport failure, valid JSON, no `error` field —
does not succeed: `result["result"]` raises an uncaught `KeyError`
instead of returning a result. -/
theorem claim_C5_counterexample :
    lookupField "error" ([] : List (String × Nat)) = none ∧
    lookupField "result" ([] : List (String × Nat)) = none ∧
    make_rpc_call (HttpOutcome.ok ([] : List (String × Nat))) =
      .error .keyError :=
  ⟨rfl, rfl, rfl⟩

/-- C5 (amended): the call fails with `TransportError` exactly on a
connection/timeout failure, with `ProtocolError` exactly on a non-JSON
body, and with `RemoteError` (surfacing the field's content) when the
parsed object has an `error` field; otherwise it returns the `result`
field's value verbatim when that field is present, and fails with an
uncaught `KeyError` when it is absent.  No retry is performed: the result
depends only on the first (sole) transport attempt. -/
theorem claim_C5_amended {V : Type} :
    (∀ o : HttpOutcome V,
      (make_rpc_call o = .error .transportError ↔ o = .urlError) ∧
      (make_rpc_call o = .error .protocolError ↔ o = .badJson) ∧
      (∀ fields e, o = .ok fields → lookupField "error" fields = some e →
        make_rpc_call o = .error (.remoteError e)) ∧
      (∀ fields r, o = .ok fields → lookupField "error" fields = none →
        lookupField "result" fields = some r → make_rpc_call o = .ok r) ∧
      (∀ fields, o = .ok fields → lookupField "error" fields = none →
        lookupField "result" fields = none →
        make_rpc_call o = .error .keyError)) ∧
    (∀ f g : Nat → HttpOutcome V, f 0 = g 0 →
      make_rpc_call_attempts f = make_rpc_call_attempts g) := by
  constructor
  · intro o
    cases o with
    | urlError =>
        refine ⟨by simp [make_rpc_call], by simp [make_rpc_call], ?_, ?_, ?_⟩ <;>
          (intros; simp_all)
    | badJson =>
        refine ⟨by simp [make_rpc_call], by simp [make_rpc_call], ?_, ?_, ?_⟩ <;>
          (intros; simp_all)
    | ok fields =>
        cases he : lookupField "error" fields with
        | some e =>
            refine ⟨?_, ?_, ?_, ?_, ?_⟩ <;>
              (intros; simp_all [make_rpc_call])
        | none =>
            cases hr : lookupField "result" fields with
            | some r =>
                refine ⟨?_, ?_, ?_, ?_, ?_⟩ <;>
                  (intros; simp_all [make_rpc_call])
            | none =>
                refine ⟨?_, ?_, ?_, ?_, ?_⟩ <;>
                  (intros; simp_all [make_rpc_call])
  · intro f g hfg
    unfold make_rpc_call_attempts
    rw [hfg]

/-- Witness for the amended C5: a well-formed JSON-RPC success response
`{"result": 5}` yields `ok 5`. -/
theorem claim_C5_amended_witness :
    make_rpc_call (HttpOutcome.ok [("result", (5 : Nat))]) = .ok 5 :=
  (claim_C5_amended.1 (HttpOutcome.ok [("result", (5 : Nat))])).2.2.2.1
    [("result", (5 : Nat))] 5 rfl (by decide) (by decide)

instance {ε α : Type} [DecidableEq ε] [DecidableEq α] :
    DecidableEq (Except ε α) := fun
  | .error e, .error e' => decidable_of_iff (e = e') (by simp)
  | .ok a, .ok a' => decidable_of_iff (a = a') (by simp)
  | .error _, .ok _ => isFalse (by simp)
  | .ok _, .error _ => isFalse (by simp)

/-! ## Date validation (`validate_date`)

`validate_date` calls `datetime.strptime(date_str, "%Y-%m-%d")`.  CPython's
`_strptime` matches the format against the regular expressions
`%Y ↦ \d\d\d\d`, `%m ↦ 1[0-2]|0[1-9]|[1-9]`, `%d ↦ 3[01]|[12]\d|0[1-9]|[1-9]`
(so the year must be exactly four digits, while month and day accept one
or two digits with optional zero padding), then constructs
`datetime(year, month, day)`, which raises `ValueError` when the year is
`0` or the day exceeds the month's length.  The embedding transcribes
those regexes alternative by alternative (character classes written via
`Char.toNat` code points: `'0'` = 48 … `'9'` = 57, `'-'` = 45) and is
meant for ASCII input strings (the CLI input in scope).  All `ValueError`s
raised during parsing and construction — "time data does not match",
"unconverted data remains", "day is out of range for month", "year 0 is
out of range" — are abstracted as the spec's `InvalidDateFormat`;
the future-date `ValueError` raised by the explicit check is
`FutureDateError`. -/

/-- ASCII digit, as matched by `\d` in the `_strptime` regexes. -/
def IsDigitCh (c : Char) : Prop := 48 ≤ c.toNat ∧ c.toNat ≤ 57

instance (c : Char) : Decidable (IsDigitCh c) := by
  unfold IsDigitCh
  infer_instance

/-- Numeric value of an ASCII digit character. -/
def digitVal (c : Char) : Nat := c.toNat - 48

/-- Value of a digit string, most significant digit first (what
`int(data)` yields on the digits captured by a `_strptime` group). -/
def natOfDigits (l : List Char) : Nat :=
  l.foldl (fun a c => 10 * a + digitVal c) 0

/-- The `%m` regex `1[0-2]|0[1-9]|[1-9]`, matched greedily against the
head of the input (alternatives in order; a two-character alternative is
preferred, and the following format character `-` can never be a digit, so
greedy matching agrees with the backtracking regex engine).  Returns the
captured month value and the remaining input. -/
def parseMonth : List Char → Option (Nat × List Char)
  | c1 :: c2 :: rest =>
    if c1.toNat = 49 ∧ 48 ≤ c2.toNat ∧ c2.toNat ≤ 50 then
      some (10 + digitVal c2, rest)
    else if c1.toNat = 48 ∧ 49 ≤ c2.toNat ∧ c2.toNat ≤ 57 then
      some (digitVal c2, rest)
    else if 49 ≤ c1.toNat ∧ c1.toNat ≤ 57 then
      some (digitVal c1, c2 :: rest)
    else none
  | [c1] =>
    if 49 ≤ c1.toNat ∧ c1.toNat ≤ 57 then some (digitVal c1, []) else none
  | [] => none

/-- The `%d` regex `3[01]|[12]\d|0[1-9]|[1-9]`, matched greedily against
the head of the input. -/
def parseDay : List Char → Option (Nat × List Char)
  | c1 :: c2 :: rest =>
    if c1.toNat = 51 ∧ (c2.toNat = 48 ∨ c2.toNat = 49) then
      some (30 + digitVal c2, rest)
    else if (c1.toNat = 49 ∨ c1.toNat = 50) ∧ 48 ≤ c2.toNat ∧ c2.toNat ≤ 57 then
      some (10 * digitVal c1 + digitVal c2, rest)
    else if c1.toNat = 48 ∧ 49 ≤ c2.toNat ∧ c2.toNat ≤ 57 then
      some (digitVal c2, rest)
    else if 49 ≤ c1.toNat ∧ c1.toNat ≤ 57 then
      some (digitVal c1, c2 :: rest)
    else none
  | [c1] =>
    if 49 ≤ c1.toNat ∧ c1.toNat ≤ 57 then some (digitVal c1, []) else none
  | [] => none

/-- `datetime.strptime(date_str, "%Y-%m-%d")`, reduced to the captured
`(year, month, day)`: exactly four digits, a literal `-`, the `%m` match,
a literal `-`, the `%d` match, and no unconverted data remaining.  `none`
covers both "time data does not match" and "unconverted data remains". -/
def strptime_Y_m_d : List Char → Option (Nat × Nat × Nat)
  | c1 :: c2 :: c3 :: c4 :: c5 :: rest =>
    if IsDigitCh c1 ∧ IsDigitCh c2 ∧ IsDigitCh c3 ∧ IsDigitCh c4 ∧
        c5.toNat = 45 then
      match parseMonth rest with
      | some (m, c6 :: rest2) =>
        if c6.toNat = 45 then
          match parseDay rest2 with
          | some (d, []) =>
            some (1000 * digitVal c1 + 100 * digitVal c2 +
              10 * digitVal c3 + digitVal c4, m, d)
          | _ => none
        else none
      | _ => none
    else none
  | _ => none

/-- Gregorian leap-year rule used by `datetime`. -/
def isLeapYear (y : Nat) : Bool :=
  y % 4 = 0 && (y % 100 ≠ 0 || y % 400 = 0)

/-- Length of month `m` in year `y`, as enforced by the `datetime`
constructor. -/
def daysInMonth (y m : Nat) : Nat :=
  if m = 2 then (if isLeapYear y then 29 else 28)
  else if m = 4 ∨ m = 6 ∨ m = 9 ∨ m = 11 then 30
  else 31

/-- A Python `datetime.date`: the value of `.date()` on a datetime, and
the shape of `datetime.now(timezone.utc).date()`. -/
structure PyDate where
  year : Nat
  month : Nat
  day : Nat
deriving DecidableEq

/-- A Python `datetime` as produced by `strptime` with format
`"%Y-%m-%d"` (time-of-day fields default to `00:00:00`; the code then
attaches `timezone.utc` without changing any field). -/
structure PyDateTime where
  year : Nat
  month : Nat
  day : Nat
  hour : Nat
  minute : Nat
  second : Nat
deriving DecidableEq

/-- Python `date.__lt__`: lexicographic comparison. -/
def dateLt (a b : PyDate) : Prop :=
  a.year < b.year ∨ (a.year = b.year ∧
    (a.month < b.month ∨ (a.month = b.month ∧ a.day < b.day)))

instance (a b : PyDate) : Decidable (dateLt a b) := by
  unfold dateLt
  infer_instance

/-- Abstraction of the two `ValueError` outcomes of `validate_date`. -/
inductive DateError where
  | invalidDateFormat
  | futureDateError
deriving DecidableEq

/-- `KavaBalanceChecker.validate_date` / `WKAVABalanceChecker.validate_date`
(`kava_balance_checker.py` lines 79–93): parse via `strptime`, then the
`datetime` constructor's range checks (year at least `MINYEAR = 1`, day at
most the month's length; the month is `1..12` by the regex), then the
explicit future-date check `date_obj.date() > datetime.now(utc).date()`,
with the current UTC date passed as `today`. -/
def validate_date (today : PyDate) (s : String) :
    Except DateError PyDateTime :=
  match strptime_Y_m_d s.data with
  | none => .error .invalidDateFormat
  | some (y, m, d) =>
    if y = 0 then .error .invalidDateFormat
    else if daysInMonth y m < d then .error .invalidDateFormat
    else if dateLt today ⟨y, m, d⟩ then .error .futureDateError
    else .ok ⟨y, m, d, 0, 0, 0⟩

theorem char_eq_of_toNat_eq {a b : Char} (h : a.toNat = b.toNat) : a = b :=
  Char.ext (UInt32.ext h)

theorem natOfDigits_one (c : Char) : natOfDigits [c] = digitVal c := by
  simp [natOfDigits]

theorem natOfDigits_two (c1 c2 : Char) :
    natOfDigits [c1, c2] = 10 * digitVal c1 + digitVal c2 := by
  simp [natOfDigits]

theorem natOfDigits_four (c1 c2 c3 c4 : Char) :
    natOfDigits [c1, c2, c3, c4] =
      1000 * digitVal c1 + 100 * digitVal c2 + 10 * digitVal c3 +
        digitVal c4 := by
  simp [natOfDigits]
  omega

/-- Decomposition of a string accepted by `strptime(s, "%Y-%m-%d")`: a
four-digit year, a dash, a one-or-two-digit month `1..12`, a dash, a
one-or-two-digit day `1..31` (zero padding of month and day optional),
and nothing further. -/
def UnpaddedYMD (l : List Char) (y m d : Nat) : Prop :=
  ∃ ys ms ds,
    l = ys ++ '-' :: (ms ++ '-' :: ds) ∧
    ys.length = 4 ∧ (∀ c ∈ ys, IsDigitCh c) ∧ y = natOfDigits ys ∧
    1 ≤ ms.length ∧ ms.length ≤ 2 ∧ (∀ c ∈ ms, IsDigitCh c) ∧
    m = natOfDigits ms ∧ 1 ≤ m ∧ m ≤ 12 ∧
    1 ≤ ds.length ∧ ds.length ≤ 2 ∧ (∀ c ∈ ds, IsDigitCh c) ∧
    d = natOfDigits ds ∧ 1 ≤ d ∧ d ≤ 31

theorem parseMonth_sound {l : List Char} {m : Nat} {rest : List Char}
    (h : parseMonth l = some (m, rest)) :
    ∃ ms, l = ms ++ rest ∧ (∀ c ∈ ms, IsDigitCh c) ∧ 1 ≤ ms.length ∧
      ms.length ≤ 2 ∧ m = natOfDigits ms ∧ 1 ≤ m ∧ m ≤ 12 := by
  rcases l with _ | ⟨c1, _ | ⟨c2, r⟩⟩
  · simp [parseMonth] at h
  · simp only [parseMonth] at h
    split_ifs at h with h1
    · simp only [Option.some_inj, Prod.mk.injEq] at h
      obtain ⟨hm, hrest⟩ := h
      refine ⟨[c1], by simp [hrest], ?_, by simp, by simp, ?_, ?_, ?_⟩
      · intro c hc
        simp at hc
        subst hc
        exact ⟨by omega, h1.2⟩
      · rw [natOfDigits_one]
        omega
      · simp [digitVal] at hm ⊢
        omega
      · simp [digitVal] at hm ⊢
        omega
  · simp only [parseMonth] at h
    split_ifs at h with h1 h2 h3
    · simp only [Option.some_inj, Prod.mk.injEq] at h
      obtain ⟨hm, hrest⟩ := h
      refine ⟨[c1, c2], by simp [hrest], ?_, by simp, by simp, ?_, ?_, ?_⟩
      · intro c hc
        simp at hc
        rcases hc with rfl | rfl
        · exact ⟨by omega, by omega⟩
        · exact ⟨by omega, by omega⟩
      · rw [natOfDigits_two]
        simp [digitVal] at hm ⊢
        omega
      · omega
      · simp [digitVal] at hm
        omega
    · simp only [Option.some_inj, Prod.mk.injEq] at h
      obtain ⟨hm, hrest⟩ := h
      refine ⟨[c1, c2], by simp [hrest], ?_, by simp, by simp, ?_, ?_, ?_⟩
      · intro c hc
        simp at hc
        rcases hc with rfl | rfl
        · exact ⟨by omega, by omega⟩
        · exact ⟨by omega, by omega⟩
      · rw [natOfDigits_two]
        simp [digitVal] at hm ⊢
        omega
      · simp [digitVal] at hm
        omega
      · simp [digitVal] at hm
        omega
    · simp only [Option.some_inj, Prod.mk.injEq] at h
      obtain ⟨hm, hrest⟩ := h
      refine ⟨[c1], by simp [hrest], ?_, by simp, by simp, ?_, ?_, ?_⟩
      · intro c hc
        simp at hc
        subst hc
        exact ⟨by omega, by omega⟩
      · rw [natOfDigits_one]
        omega
      · simp [digitVal] at hm
        omega
      · simp [digitVal] at hm
        omega

theorem parseMonth_complete {ms rest : List Char}
    (hdig : ∀ c ∈ ms, IsDigitCh c) (hlen1 : 1 ≤ ms.length)
    (hlen2 : ms.length ≤ 2) (hm1 : 1 ≤ natOfDigits ms)
    (hm2 : natOfDigits ms ≤ 12) :
    parseMonth (ms ++ '-' :: rest) = some (natOfDigits ms, '-' :: rest) := by
  have h45 : ('-' : Char).toNat = 45 := rfl
  rcases ms with _ | ⟨c1, _ | ⟨c2, r⟩⟩
  · simp at hlen1
  · have hd1 : IsDigitCh c1 := hdig c1 (by simp)
    obtain ⟨hd1a, hd1b⟩ := hd1
    rw [natOfDigits_one] at hm1 hm2 ⊢
    simp only [List.cons_append, List.nil_append, parseMonth]
    rw [if_neg (by omega), if_neg (by omega),
      if_pos (by simp [digitVal] at hm1; omega)]
  · rcases r with _ | ⟨c3, r'⟩
    · have hd1 : IsDigitCh c1 := hdig c1 (by simp)
      have hd2 : IsDigitCh c2 := hdig c2 (by simp)
      obtain ⟨hd1a, hd1b⟩ := hd1
      obtain ⟨hd2a, hd2b⟩ := hd2
      rw [natOfDigits_two] at hm1 hm2 ⊢
      simp only [List.cons_append, List.nil_append, parseMonth]
      simp only [digitVal] at hm1 hm2 ⊢
      by_cases hc1 : c1.toNat = 49
      · rw [if_pos (by omega)]
        simp only [Option.some_inj, Prod.mk.injEq]
        exact ⟨by omega, trivial⟩
      · by_cases hc0 : c1.toNat = 48
        · rw [if_neg (by omega), if_pos (by omega)]
          simp only [Option.some_inj, Prod.mk.injEq]
          exact ⟨by omega, trivial⟩
        · exact absurd hm2 (by omega)
    · simp at hlen2

theorem parseDay_sound {l : List Char} {d : Nat} {rest : List Char}
    (h : parseDay l = some (d, rest)) :
    ∃ ds, l = ds ++ rest ∧ (∀ c ∈ ds, IsDigitCh c) ∧ 1 ≤ ds.length ∧
      ds.length ≤ 2 ∧ d = natOfDigits ds ∧ 1 ≤ d ∧ d ≤ 31 := by
  rcases l with _ | ⟨c1, _ | ⟨c2, r⟩⟩
  · simp [parseDay] at h
  · simp only [parseDay] at h
    split_ifs at h with h1
    · simp only [Option.some_inj, Prod.mk.injEq] at h
      obtain ⟨hd, hrest⟩ := h
      refine ⟨[c1], by simp [hrest], ?_, by simp, by simp, ?_, ?_, ?_⟩
      · intro c hc
        simp at hc
        subst hc
        exact ⟨by omega, by omega⟩
      · rw [natOfDigits_one]
        omega
      · simp [digitVal] at hd
        omega
      · simp [digitVal] at hd
        omega
  · simp only [parseDay] at h
    split_ifs at h with h1 h2 h3 h4
    · simp only [Option.some_inj, Prod.mk.injEq] at h
      obtain ⟨hd, hrest⟩ := h
      refine ⟨[c1, c2], by simp [hrest], ?_, by simp, by simp, ?_, ?_, ?_⟩
      · intro c hc
        simp at hc
        rcases hc with rfl | rfl
        · exact ⟨by omega, by omega⟩
        · exact ⟨by omega, by omega⟩
      · rw [natOfDigits_two]
        simp [digitVal] at hd ⊢
        omega
      · simp [digitVal] at hd
        omega
      · simp [digitVal] at hd
        omega
    · simp only [Option.some_inj, Prod.mk.injEq] at h
      obtain ⟨hd, hrest⟩ := h
      refine ⟨[c1, c2], by simp [hrest], ?_, by simp, by simp, ?_, ?_, ?_⟩
      · intro c hc
        simp at hc
        rcases hc with rfl | rfl
        · exact ⟨by omega, by omega⟩
        · exact ⟨by omega, by omega⟩
      · rw [natOfDigits_two]
        simp [digitVal] at hd ⊢
        omega
      · simp [digitVal] at hd
        omega
      · simp [digitVal] at hd
        omega
    · simp only [Option.some_inj, Prod.mk.injEq] at h
      obtain ⟨hd, hrest⟩ := h
      refine ⟨[c1, c2], by simp [hrest], ?_, by simp, by simp, ?_, ?_, ?_⟩
      · intro c hc
        simp at hc
        rcases hc with rfl | rfl
        · exact ⟨by omega, by omega⟩
        · exact ⟨by omega, by omega⟩
      · rw [natOfDigits_two]
        simp [digitVal] at hd ⊢
        omega
      · simp [digitVal] at hd
        omega
      · simp [digitVal] at hd
        omega
    · simp only [Option.some_inj, Prod.mk.injEq] at h
      obtain ⟨hd, hrest⟩ := h
      refine ⟨[c1], by simp [hrest], ?_, by simp, by simp, ?_, ?_, ?_⟩
      · intro c hc
        simp at hc
        subst hc
        exact ⟨by omega, by omega⟩
      · rw [natOfDigits_one]
        omega
      · simp [digitVal] at hd
        omega
      · simp [digitVal] at hd
        omega

theorem parseDay_complete {ds : List Char}
    (hdig : ∀ c ∈ ds, IsDigitCh c) (hlen1 : 1 ≤ ds.length)
    (hlen2 : ds.length ≤ 2) (hd1 : 1 ≤ natOfDigits ds)
    (hd2 : natOfDigits ds ≤ 31) :
    parseDay ds = some (natOfDigits ds, []) := by
  rcases ds with _ | ⟨c1, _ | ⟨c2, r⟩⟩
  · simp at hlen1
  · have hc1 : IsDigitCh c1 := hdig c1 (by simp)
    obtain ⟨hc1a, hc1b⟩ := hc1
    rw [natOfDigits_one] at hd1 hd2 ⊢
    simp only [parseDay]
    rw [if_pos (by simp [digitVal] at hd1; omega)]
  · rcases r with _ | ⟨c3, r'⟩
    · have hc1 : IsDigitCh c1 := hdig c1 (by simp)
      have hc2 : IsDigitCh c2 := hdig c2 (by simp)
      obtain ⟨hc1a, hc1b⟩ := hc1
      obtain ⟨hc2a, hc2b⟩ := hc2
      rw [natOfDigits_two] at hd1 hd2 ⊢
      simp only [parseDay]
      simp only [digitVal] at hd1 hd2 ⊢
      by_cases h51 : c1.toNat = 51
      · rw [if_pos (by omega)]
        simp only [Option.some_inj, Prod.mk.injEq]
        exact ⟨by omega, trivial⟩
      · by_cases h12 : c1.toNat = 49 ∨ c1.toNat = 50
        · rw [if_neg (by omega), if_pos (by omega)]
        · by_cases h0 : c1.toNat = 48
          · rw [if_neg (by omega), if_neg (by omega), if_pos (by omega)]
            simp only [Option.some_inj, Prod.mk.injEq]
            exact ⟨by omega, trivial⟩
          · exact absurd hd2 (by omega)
    · simp at hlen2

/-- Characterisation of the embedded `strptime`: it succeeds with
`(y, m, d)` exactly on the strings described by `UnpaddedYMD`. -/
theorem strptime_iff (l : List Char) (y m d : Nat) :
    strptime_Y_m_d l = some (y, m, d) ↔ UnpaddedYMD l y m d := by
  constructor
  · intro h
    rcases l with _ | ⟨c1, _ | ⟨c2, _ | ⟨c3, _ | ⟨c4, _ | ⟨c5, rest⟩⟩⟩⟩⟩
    · simp [strptime_Y_m_d] at h
    · simp [strptime_Y_m_d] at h
    · simp [strptime_Y_m_d] at h
    · simp [strptime_Y_m_d] at h
    · simp [strptime_Y_m_d] at h
    · simp only [strptime_Y_m_d] at h
      split_ifs at h with hcond
      obtain ⟨hd1, hd2, hd3, hd4, h45⟩ := hcond
      cases hpm : parseMonth rest with
      | none =>
          rw [hpm] at h
          simp at h
      | some pr =>
          obtain ⟨m', rest1⟩ := pr
          rw [hpm] at h
          rcases rest1 with _ | ⟨c6, rest2⟩
          · simp at h
          · dsimp only at h
            split_ifs at h with h6
            cases hpd : parseDay rest2 with
            | none =>
                rw [hpd] at h
                simp at h
            | some pd =>
                obtain ⟨d', rest3⟩ := pd
                rw [hpd] at h
                rcases rest3 with _ | ⟨c7, rest4⟩
                · dsimp only at h
                  simp only [Option.some_inj, Prod.mk.injEq] at h
                  obtain ⟨hy, hm, hd⟩ := h
                  obtain ⟨ms, hrest, hmsdig, hms1, hms2, hmval, hm1, hm2⟩ :=
                    parseMonth_sound hpm
                  obtain ⟨ds, hrest2, hdsdig, hds1, hds2, hdval, hdd1, hdd2⟩ :=
                    parseDay_sound hpd
                  have hc5 : c5 = '-' := char_eq_of_toNat_eq (by rw [h45]; rfl)
                  have hc6 : c6 = '-' := char_eq_of_toNat_eq (by rw [h6]; rfl)
                  subst hc5
                  subst hc6
                  refine ⟨[c1, c2, c3, c4], ms, ds,
                    ?_, rfl, ?_, ?_, hms1, hms2, hmsdig, ?_, ?_, ?_,
                    hds1, hds2, hdsdig, ?_, ?_, ?_⟩
                  · simp only [List.append_nil] at hrest2
                    rw [hrest, hrest2]
                    simp
                  · intro c hc
                    simp at hc
                    rcases hc with rfl | rfl | rfl | rfl
                    · exact hd1
                    · exact hd2
                    · exact hd3
                    · exact hd4
                  · rw [natOfDigits_four]
                    omega
                  · omega
                  · omega
                  · omega
                  · omega
                  · omega
                  · omega
                · simp at h
  · rintro ⟨ys, ms, ds, hl, hlen, hysdig, hy, hms1, hms2, hmsdig,
      hmval, hm1, hm2, hds1, hds2, hdsdig, hdval, hdd1, hdd2⟩
    rcases ys with _ | ⟨a, _ | ⟨b, _ | ⟨c, _ | ⟨e, _ | ⟨f, tl⟩⟩⟩⟩⟩ <;>
      try simp at hlen
    subst hl
    simp only [List.cons_append, List.nil_append, strptime_Y_m_d]
    rw [if_pos ⟨hysdig a (by simp), hysdig b (by simp), hysdig c (by simp),
      hysdig e (by simp), rfl⟩]
    rw [hmval] at hm1 hm2
    rw [hdval] at hdd1 hdd2
    rw [parseMonth_complete hmsdig hms1 hms2 hm1 hm2]
    dsimp only
    rw [if_pos (show ('-' : Char).toNat = 45 from rfl)]
    rw [parseDay_complete hdsdig hds1 hds2 hdd1 hdd2]
    dsimp only
    simp only [Option.some_inj, Prod.mk.injEq]
    refine ⟨?_, by omega, by omega⟩
    rw [natOfDigits_four] at hy
    omega

/-- An input string `validate_date` accepts up to the future-date check:
a `strptime`-acceptable decomposition whose parts also pass the `datetime`
constructor's range checks (year at least 1, day fitting the month). -/
def PyAcceptableDate (l : List Char) : Prop :=
  ∃ y m d, UnpaddedYMD l y m d ∧ 1 ≤ y ∧ d ≤ daysInMonth y m

/-- A valid calendar date written in strict zero-padded `YYYY-MM-DD`
form: an acceptable decomposition of exactly ten characters, which forces
the month and the day to be two digits each. -/
def IsStrictDateString (l : List Char) : Prop :=
  ∃ y m d, UnpaddedYMD l y m d ∧ l.length = 10 ∧ 1 ≤ y ∧
    d ≤ daysInMonth y m

/-- Counterexample to C6 as stated: `"2024-2-3"` is not a strict
`YYYY-MM-DD` string (it has eight characters, with unpadded month and
day), yet `validate_date` accepts it — CPython's `strptime` `%m`/`%d`
regexes accept one-digit fields. -/
theorem claim_C6_counterexample :
    ¬ IsStrictDateString ("2024-2-3".data) ∧
    validate_date ⟨2025, 1, 1⟩ "2024-2-3" = .ok ⟨2024, 2, 3, 0, 0, 0⟩ := by
  constructor
  · rintro ⟨y, m, d, _, hlen, _⟩
    have h8 : ("2024-2-3".data).length = 8 := by decide
    omega
  · decide

/-- C6 (amended): `validate_date` fails with `InvalidDateFormat` for
every input string that does not consist of a four-digit year, a dash, a
one-or-two-digit month, a dash and a one-or-two-digit day forming a valid
calendar date (zero padding of month and day optional), and only strings
of that shape are accepted; in particular `"2024-02-30"` (an invalid
calendar date) yields `InvalidDateFormat` whatever the current date. -/
theorem claim_C6_amended :
    (∀ (today : PyDate) (s : String), ¬ PyAcceptableDate s.data →
      validate_date today s = .error .invalidDateFormat) ∧
    (∀ (today : PyDate) (s : String) (r : PyDateTime),
      validate_date today s = .ok r → PyAcceptableDate s.data) ∧
    (∀ today : PyDate,
      validate_date today "2024-02-30" = .error .invalidDateFormat) := by
  refine ⟨?_, ?_, ?_⟩
  · intro today s hna
    unfold validate_date
    cases hps : strptime_Y_m_d s.data with
    | none => rfl
    | some t =>
        obtain ⟨y, m, d⟩ := t
        have hun := (strptime_iff s.data y m d).mp hps
        dsimp only
        by_cases hy : y = 0
        · rw [if_pos hy]
        · rw [if_neg hy]
          by_cases hdm : daysInMonth y m < d
          · rw [if_pos hdm]
          · exact absurd ⟨y, m, d, hun, by omega, by omega⟩ hna
  · intro today s r hok
    unfold validate_date at hok
    cases hps : strptime_Y_m_d s.data with
    | none =>
        rw [hps] at hok
        simp at hok
    | some t =>
        obtain ⟨y, m, d⟩ := t
        rw [hps] at hok
        dsimp only at hok
        split_ifs at hok with hy hdm hfut
        exact ⟨y, m, d, (strptime_iff _ _ _ _).mp hps, by omega, by omega⟩
  · intro today
    unfold validate_date
    have hps : strptime_Y_m_d ("2024-02-30".data) = some (2024, 2, 30) := by
      decide
    rw [hps]
    dsimp only
    rw [if_neg (by decide), if_pos (by decide)]

/-- Witness for the amended C6: the spec's own example input
`"2024-02-30"` yields `InvalidDateFormat` (here with the current UTC date
`2024-01-01`). -/
theorem claim_C6_amended_witness :
    validate_date ⟨2024, 1, 1⟩ "2024-02-30" = .error .invalidDateFormat :=
  claim_C6_amended.2.2 ⟨2024, 1, 1⟩

/-- C7: for every input accepted by the parsing and calendar checks,
`validate_date` fails with `FutureDateError` exactly when the parsed
calendar day is strictly later than the current UTC day, and otherwise
returns the parsed datetime with all time-of-day fields zero
(midnight UTC); in particular, with the current UTC date `2024-06-15`,
tomorrow's date `"2024-06-16"` yields `FutureDateError` and today's date
`"2024-06-15"` is accepted at `00:00:00`. -/
theorem claim_C7 :
    (∀ (today : PyDate) (s : String) (y m d : Nat),
      UnpaddedYMD s.data y m d → 1 ≤ y → d ≤ daysInMonth y m →
      ((validate_date today s = .error .futureDateError ↔
          dateLt today ⟨y, m, d⟩) ∧
        (¬ dateLt today ⟨y, m, d⟩ →
          validate_date today s = .ok ⟨y, m, d, 0, 0, 0⟩))) ∧
    validate_date ⟨2024, 6, 15⟩ "2024-06-16" = .error .futureDateError ∧
    validate_date ⟨2024, 6, 15⟩ "2024-06-15" = .ok ⟨2024, 6, 15, 0, 0, 0⟩ := by
  refine ⟨?_, by decide, by decide⟩
  intro today s y m d hun hy hdm
  have hps : strptime_Y_m_d s.data = some (y, m, d) :=
    (strptime_iff _ _ _ _).mpr hun
  unfold validate_date
  rw [hps]
  dsimp only
  rw [if_neg (by omega), if_neg (by omega)]
  constructor
  · constructor
    · intro hval
      by_cases hfut : dateLt today ⟨y, m, d⟩
      · exact hfut
      · rw [if_neg hfut] at hval
        exact absurd hval (by simp)
    · intro hfut
      rw [if_pos hfut]
  · intro hfut
    rw [if_neg hfut]

/-- Witness for C7, exercising the general equivalence at a concrete
input: with current UTC date `2024-06-15`, the later date `"2024-06-17"`
yields `FutureDateError`. -/
theorem claim_C7_witness :
    validate_date ⟨2024, 6, 15⟩ "2024-06-17" = .error .futureDateError :=
  ((claim_C7.1 ⟨2024, 6, 15⟩ "2024-06-17" 2024 6 17
    ((strptime_iff _ 2024 6 17).mp (by decide)) (by omega) (by decide)).1).mpr
    (by decide)

/-! ## ERC20 `balanceOf` call encoding (`WKAVABalanceChecker`)

`encode_balance_of_call` works on ASCII hex address strings; Python's
`str.lower` agrees with `Char.toLower` on ASCII, and `str.zfill` is
transcribed including its leading-sign special case. -/

theorem char_toNat_ofNat (n : Nat) (h : n < 55296) :
    (Char.ofNat n).toNat = n := by
  unfold Char.ofNat Char.toNat
  rw [dif_pos (by unfold Nat.isValidChar; omega)]
  simp [Char.ofNatAux, UInt32.ofNat', UInt32.toNat]

/-- ASCII hexadecimal digit (`0-9`, `a-f`, `A-F`). -/
def IsHexDigitCh (c : Char) : Prop :=
  (48 ≤ c.toNat ∧ c.toNat ≤ 57) ∨ (97 ≤ c.toNat ∧ c.toNat ≤ 102) ∨
    (65 ≤ c.toNat ∧ c.toNat ≤ 70)

instance (c : Char) : Decidable (IsHexDigitCh c) := by
  unfold IsHexDigitCh
  infer_instance

/-- Python `str.zfill(width)`: pad on the left with `'0'` up to `width`
characters, keeping a leading `'+'`/`'-'` sign in front of the padding. -/
def pyZfill (width : Nat) (l : List Char) : List Char :=
  match l with
  | [] => List.replicate width '0'
  | c :: rest =>
    if c.toNat = 43 ∨ c.toNat = 45 then
      c :: (List.replicate (width - (rest.length + 1)) '0' ++ rest)
    else
      List.replicate (width - (rest.length + 1)) '0' ++ (c :: rest)

/-- `WKAVABalanceChecker.encode_balance_of_call`
(`wkava_balance_checker.py` lines 87–95):
`"0x" + "70a08231" + address[2:].lower().zfill(64)`. -/
def encode_balance_of_call (address : String) : String :=
  String.mk ("0x".data ++ "70a08231".data ++
    pyZfill 64 ((address.data.drop 2).map Char.toLower))

theorem toLower_hex_toNat {c : Char} (h : IsHexDigitCh c) :
    (48 ≤ (Char.toLower c).toNat ∧ (Char.toLower c).toNat ≤ 57) ∨
      (97 ≤ (Char.toLower c).toNat ∧ (Char.toLower c).toNat ≤ 102) := by
  unfold Char.toLower
  rcases h with ⟨h1, h2⟩ | ⟨h1, h2⟩ | ⟨h1, h2⟩
  · rw [if_neg (by omega)]
    exact Or.inl ⟨h1, h2⟩
  · rw [if_neg (by omega)]
    exact Or.inr ⟨h1, h2⟩
  · rw [if_pos (by omega)]
    rw [char_toNat_ofNat (c.toNat + 32) (by omega)]
    exact Or.inr ⟨by omega, by omega⟩

/-- C8: for an owner address `"0x"` followed by 40 hexadecimal
characters, the encoded call data is exactly `"0x"`, the fixed selector
`70a08231`, 24 zero characters, and the 40 address digits lower-cased —
74 characters in total. -/
theorem claim_C8 (l : List Char) (hlen : l.length = 40)
    (hhex : ∀ c ∈ l, IsHexDigitCh c) :
    encode_balance_of_call (String.mk ('0' :: 'x' :: l)) =
      String.mk ("0x70a08231".data ++ List.replicate 24 '0' ++
        l.map Char.toLower) ∧
    (encode_balance_of_call (String.mk ('0' :: 'x' :: l))).length = 74 := by
  have hdrop : (String.mk ('0' :: 'x' :: l)).data.drop 2 = l := rfl
  have hmain : encode_balance_of_call (String.mk ('0' :: 'x' :: l)) =
      String.mk ("0x70a08231".data ++ List.replicate 24 '0' ++
        l.map Char.toLower) := by
    unfold encode_balance_of_call
    rw [hdrop]
    rcases hl : l with _ | ⟨c, rest⟩
    · rw [hl] at hlen
      simp at hlen
    · have hc : IsHexDigitCh c := hhex c (by rw [hl]; simp)
      have hlow := toLower_hex_toNat hc
      have hlenr : rest.length = 39 := by
        rw [hl] at hlen
        simpa using hlen
      simp only [List.map_cons, pyZfill]
      rw [if_neg (by omega)]
      simp only [List.length_map, hlenr]
      show String.mk ("0x".data ++ "70a08231".data ++
        (List.replicate 24 '0' ++ (Char.toLower c :: rest.map Char.toLower))) = _
      congr 1
  refine ⟨hmain, ?_⟩
  rw [hmain]
  show ("0x70a08231".data ++ List.replicate 24 '0' ++
    l.map Char.toLower).length = 74
  simp [hlen]

/-- Witness for C8: the spec's example — the address `"0x"` + 40 `'a'`s
encodes to the selector payload followed by 24 zeros and the 40 `'a'`s
(already lower case), 74 characters in total. -/
theorem claim_C8_witness :
    encode_balance_of_call (String.mk ('0' :: 'x' :: List.replicate 40 'a')) =
      String.mk ("0x70a08231".data ++ List.replicate 24 '0' ++
        (List.replicate 40 'a').map Char.toLower) ∧
    (encode_balance_of_call
      (String.mk ('0' :: 'x' :: List.replicate 40 'a'))).length = 74 :=
  claim_C8 (List.replicate 40 'a') (by simp)
    (by
      intro c hc
      rw [List.eq_of_mem_replicate hc]
      decide)

/-! ## ERC20 `balanceOf` result decoding (`decode_balance_result`)

`decode_balance_result` calls Python's `int(result, 16)`, whose grammar
is wider than a bare hexadecimal numeral: optional surrounding
whitespace, an optional single sign, an optional `0x`/`0X` prefix
(optionally followed by one underscore), and hexadecimal digits with
single underscores allowed between digits.  The embedding transcribes
that grammar for ASCII strings (the RPC responses in scope).  Code
points: `'+'` 43, `'-'` 45, `'0'` 48, `'x'` 120, `'X'` 88, `'_'` 95. -/

/-- ASCII whitespace stripped by `int()`. -/
def IsPySpace (c : Char) : Prop :=
  c.toNat = 32 ∨ (9 ≤ c.toNat ∧ c.toNat ≤ 13)

instance (c : Char) : Decidable (IsPySpace c) := by
  unfold IsPySpace
  infer_instance

/-- Value of one hexadecimal digit. -/
def hexVal (c : Char) : Nat :=
  if c.toNat ≤ 57 then c.toNat - 48
  else if c.toNat ≤ 70 then c.toNat - 55
  else c.toNat - 87

/-- Big-endian value of a string of hexadecimal digits. -/
def hexNatOfDigits (l : List Char) : Nat :=
  l.foldl (fun a c => 16 * a + hexVal c) 0

/-- Digit-run scanner: consumes hexadecimal digits, allowing a single
underscore between two digits, and returns the accumulated value and the
unconsumed remainder. -/
def hexDigitsLoop (acc : Nat) : List Char → Nat × List Char
  | [] => (acc, [])
  | c :: rest =>
    if IsHexDigitCh c then hexDigitsLoop (16 * acc + hexVal c) rest
    else if c.toNat = 95 then
      match rest with
      | c2 :: rest2 =>
        if IsHexDigitCh c2 then hexDigitsLoop (16 * acc + hexVal c2) rest2
        else (acc, c :: rest)
      | [] => (acc, [c])
    else (acc, c :: rest)

/-- Digit part of `int(s, 16)`: at least one digit, then the digit run;
afterwards only trailing whitespace may remain. -/
def pyIntDigits (sgn : Int) (l : List Char) : Option Int :=
  match l with
  | c :: rest =>
    if IsHexDigitCh c then
      let p := hexDigitsLoop (hexVal c) rest
      if p.2.dropWhile (fun ch => decide (IsPySpace ch)) = [] then
        some (sgn * (p.1 : Int))
      else none
    else none
  | [] => none

/-- After the optional sign: an optional `0x`/`0X` prefix, optionally
followed by one underscore (which must then be followed by a digit —
enforced by `pyIntDigits`). -/
def pyIntAfterSign (sgn : Int) (l : List Char) : Option Int :=
  match l with
  | c0 :: c1 :: rest =>
    if c0.toNat = 48 ∧ (c1.toNat = 120 ∨ c1.toNat = 88) then
      pyIntDigits sgn
        (match rest with
          | c2 :: rest2 => if c2.toNat = 95 then rest2 else rest
          | [] => rest)
    else pyIntDigits sgn l
  | _ => pyIntDigits sgn l

/-- Python `int(s, 16)`: strip leading whitespace, read an optional
single sign, then the prefixed digit part; `none` models the raised
`ValueError`. -/
def pyIntBase16 (l : List Char) : Option Int :=
  match l.dropWhile (fun c => decide (IsPySpace c)) with
  | [] => none
  | c :: r =>
    if c.toNat = 45 then pyIntAfterSign (-1) r
    else if c.toNat = 43 then pyIntAfterSign 1 r
    else pyIntAfterSign 1 (c :: r)

/-- Failure of `decode_balance_result` (a `ValueError` escaping from
`int(result, 16)`). -/
inductive DecodeError where
  | decodeError
deriving DecidableEq

/-- `WKAVABalanceChecker.decode_balance_result`
(`wkava_balance_checker.py` lines 97–101): the exact string `"0x"` maps
to `0`; anything else goes through `int(result, 16)`. -/
def decode_balance_result (s : String) : Except DecodeError Int :=
  if s = "0x" then .ok 0
  else
    match pyIntBase16 s.data with
    | some v => .ok v
    | none => .error .decodeError

/-- A bare hexadecimal numeral in the spec's sense: hexadecimal digits,
optionally preceded by `0x`. -/
def IsHexNumeral (l : List Char) : Prop :=
  ∃ ds, (l = ds ∨ l = '0' :: 'x' :: ds) ∧ ds ≠ [] ∧ ∀ c ∈ ds, IsHexDigitCh c

theorem hexDigitsLoop_all_hex :
    ∀ (l : List Char) (acc : Nat), (∀ c ∈ l, IsHexDigitCh c) →
      hexDigitsLoop acc l =
        (l.foldl (fun a c => 16 * a + hexVal c) acc, []) := by
  intro l
  induction l with
  | nil =>
      intro acc _
      simp [hexDigitsLoop]
  | cons c rest ih =>
      intro acc hall
      rw [hexDigitsLoop.eq_def]
      dsimp only
      rw [if_pos (hall c (by simp))]
      rw [ih _ (fun c' hc' => hall c' (by simp [hc']))]
      simp

theorem pyIntDigits_hex {ds : List Char} (sgn : Int) (hne : ds ≠ [])
    (hdig : ∀ c ∈ ds, IsHexDigitCh c) :
    pyIntDigits sgn ds = some (sgn * (hexNatOfDigits ds : Int)) := by
  rcases ds with _ | ⟨c, rest⟩
  · exact absurd rfl hne
  · simp only [pyIntDigits]
    rw [if_pos (hdig c (by simp))]
    rw [hexDigitsLoop_all_hex rest (hexVal c)
      (fun c' hc' => hdig c' (by simp [hc']))]
    simp [hexNatOfDigits]

theorem not_pySpace_of_hex {c : Char} (h : IsHexDigitCh c) : ¬ IsPySpace c := by
  unfold IsPySpace
  rcases h with ⟨h1, _⟩ | ⟨h1, _⟩ | ⟨h1, _⟩ <;> omega

theorem pyIntBase16_hex {ds : List Char} (hne : ds ≠ [])
    (hdig : ∀ c ∈ ds, IsHexDigitCh c) :
    pyIntBase16 ds = some ((hexNatOfDigits ds : Int)) ∧
    pyIntBase16 ('0' :: 'x' :: ds) = some ((hexNatOfDigits ds : Int)) := by
  rcases ds with _ | ⟨c, rest⟩
  · exact absurd rfl hne
  · have hc := hdig c (by simp)
    constructor
    · unfold pyIntBase16
      rw [List.dropWhile_cons,
        if_neg (by simpa using not_pySpace_of_hex hc)]
      dsimp only
      rw [if_neg (by rcases hc with ⟨h1, h2⟩ | ⟨h1, h2⟩ | ⟨h1, h2⟩ <;> omega),
        if_neg (by rcases hc with ⟨h1, h2⟩ | ⟨h1, h2⟩ | ⟨h1, h2⟩ <;> omega)]
      rcases rest with _ | ⟨c1, r2⟩
      · simp only [pyIntAfterSign]
        rw [pyIntDigits_hex 1 (by simp) hdig]
        simp
      · have hc1 := hdig c1 (by simp)
        simp only [pyIntAfterSign]
        rw [if_neg (by rcases hc1 with ⟨h1, h2⟩ | ⟨h1, h2⟩ | ⟨h1, h2⟩ <;> omega)]
        rw [pyIntDigits_hex 1 (by simp) hdig]
        simp
    · unfold pyIntBase16
      rw [List.dropWhile_cons, if_neg (by simp [IsPySpace])]
      dsimp only
      rw [if_neg (by simp), if_neg (by simp)]
      simp only [pyIntAfterSign]
      rw [if_pos (by simp)]
      rw [show (if c.toNat = 95 then rest else c :: rest) = c :: rest from
        if_neg (by rcases hc with ⟨h1, h2⟩ | ⟨h1, h2⟩ | ⟨h1, h2⟩ <;> omega)]
      rw [pyIntDigits_hex 1 (by simp) hdig]
      simp

/-- Counterexample to C9 as stated: `"-64"` is not a hexadecimal string,
yet `decode_balance_result` does not fail — Python's `int(s, 16)` accepts
an optional sign, so it returns the negative value `-100` (not an
unsigned big-endian value). -/
theorem claim_C9_counterexample :
    ¬ IsHexNumeral ("-64".data) ∧
    decode_balance_result "-64" = .ok (-100) := by
  constructor
  · rintro ⟨ds, hds | hds, hne, hdig⟩
    · have hmem : ('-' : Char) ∈ ds := by
        rw [← hds]
        decide
      exact absurd (hdig _ hmem) (by decide)
    · have h0 : (['-', '6', '4'] : List Char) = '0' :: 'x' :: ds := hds
      injection h0 with h1 _
      exact absurd h1 (by decide)
  · decide

/-- C9 (amended): `decode_balance_result` maps the exact string `"0x"` to
`0` and any string of hexadecimal digits — with or without a `0x` prefix —
to its big-endian unsigned value (in particular `"0x64"` to `100`); it
fails with `DecodeError` exactly when Python's `int(s, 16)` grammar
rejects the string, a grammar that additionally tolerates surrounding
whitespace, a single sign, a `0X` prefix and single underscores between
digits (so, e.g., `"-64"` decodes to `-100` instead of failing). -/
theorem claim_C9_amended :
    decode_balance_result "0x" = .ok 0 ∧
    decode_balance_result "0x64" = .ok 100 ∧
    (∀ ds : List Char, ds ≠ [] → (∀ c ∈ ds, IsHexDigitCh c) →
      decode_balance_result (String.mk ds) = .ok (hexNatOfDigits ds) ∧
      decode_balance_result (String.mk ('0' :: 'x' :: ds)) =
        .ok (hexNatOfDigits ds)) ∧
    (∀ s : String, decode_balance_result s = .error .decodeError ↔
      (s ≠ "0x" ∧ pyIntBase16 s.data = none)) := by
  refine ⟨by decide, by decide, ?_, ?_⟩
  · intro ds hne hdig
    have hx : ('x' : Char) ∉ ds := fun hmem => absurd (hdig _ hmem) (by decide)
    obtain ⟨h1, h2⟩ := pyIntBase16_hex hne hdig
    constructor
    · have hneq : String.mk ds ≠ "0x" := by
        intro heq
        have hdata : ds = ['0', 'x'] := congrArg String.data heq
        rw [hdata] at hx
        exact hx (by simp)
      unfold decode_balance_result
      rw [if_neg hneq]
      rw [show (String.mk ds).data = ds from rfl, h1]
    · have hneq : String.mk ('0' :: 'x' :: ds) ≠ "0x" := by
        intro heq
        have hdata : ('0' :: 'x' :: ds : List Char) = ['0', 'x'] :=
          congrArg String.data heq
        have hlen := congrArg List.length hdata
        simp at hlen
        exact hne hlen
      unfold decode_balance_result
      rw [if_neg hneq]
      rw [show (String.mk ('0' :: 'x' :: ds)).data = '0' :: 'x' :: ds from rfl,
        h2]
  · intro s
    unfold decode_balance_result
    by_cases h0 : s = "0x"
    · rw [if_pos h0]
      simp [h0]
    · rw [if_neg h0]
      cases hp : pyIntBase16 s.data with
      | some v => simp [h0, hp]
      | none => simp [h0]

/-- Witness for the amended C9: the two-digit string `"64"` (no prefix)
decodes to its big-endian unsigned value. -/
theorem claim_C9_amended_witness :
    decode_balance_result (String.mk ['6', '4']) =
      .ok (hexNatOfDigits ['6', '4']) :=
  (claim_C9_amended.2.2.1 ['6', '4'] (by decide) (by decide)).1

end KavaChecker
